import Mathlib

/-!
Verification development for the `corpl` directive-driven config toggling
engine (crates `corpl` and `common`).

Bytes are modelled as `Nat` values, byte strings as `List Nat`.  Rust slice
indexing that can panic is modelled by returning `Option.none`; `usize`
subtraction that can underflow is guarded the same way (in release mode the
wrapped huge index makes the subsequent slice operation panic, so both
compilation modes abort there).  Caller-supplied `HashSet`s are modelled as
lists with membership via `List.contains`.
-/

namespace Corpl

/-- Byte is a line terminator (CR or LF), as scanned by `Lines::next` and
`get_line_ending`. -/
def termByte (b : Nat) : Bool := b == 13 || b == 10

/-- `is_whitespace` from `corpl/src/lib.rs`: `matches!(byte, 32 | 9..=13)`. -/
def is_whitespace (b : Nat) : Bool := b == 32 || (9 ≤ b && b ≤ 13)

/-- `first_non_whitespace`: position of the first non-whitespace byte,
`0` when every byte is whitespace (the Rust loop leaves `s = 0`). -/
def first_non_whitespace (bytes : List Nat) : Nat :=
  let i := bytes.findIdx (fun b => !(is_whitespace b))
  if i < bytes.length then i else 0

/-- `last_non_whitespace`: one past the position of the last non-whitespace
byte, `0` when every byte is whitespace (the Rust loop leaves `e = 0`). -/
def last_non_whitespace (bytes : List Nat) : Nat :=
  let j := bytes.reverse.findIdx (fun b => !(is_whitespace b))
  if j < bytes.length then bytes.length - j else 0

/-- `trim`: `&bytes[first_non_whitespace(bytes)..last_non_whitespace(bytes)]`. -/
def trim (bytes : List Nat) : List Nat :=
  (bytes.drop (first_non_whitespace bytes)).take
    (last_non_whitespace bytes - first_non_whitespace bytes)

/-- Helper for `get_last`: try window positions `k, k-1, ..., 0` (the Rust
code iterates `windows(m+1).enumerate().rev()`). `pat` is `to_match ++ [32]`. -/
def get_last_aux (bytes pat : List Nat) : Nat → Option (List Nat)
  | 0 => if pat.isPrefixOf bytes then some (bytes.drop pat.length) else none
  | k + 1 =>
    if pat.isPrefixOf (bytes.drop (k + 1)) then some (bytes.drop (k + 1 + pat.length))
    else get_last_aux bytes pat k

/-- `get_last`: last position where `to_match` followed by a space occurs;
returns the bytes after that occurrence. -/
def get_last (bytes to_match : List Nat) : Option (List Nat) :=
  if to_match.length + 1 ≤ bytes.length then
    get_last_aux bytes (to_match ++ [32]) (bytes.length - (to_match.length + 1))
  else none

/-- `get_line_ending`: scan for the first byte that is CR or LF; CR gives
`\r\n`, LF gives `\n`, no terminator gives `\n`. -/
def get_line_ending (bytes : List Nat) : List Nat :=
  match bytes.find? termByte with
  | some 13 => [13, 10]
  | some _ => [10]
  | none => [10]

/-- Fuel-indexed model of iterating `Lines::next` to exhaustion, operating on
the remaining suffix of the file.  `Option.none` models a panic:
`Lines::next` evaluates `self.bytes[end]` where `end` may equal the buffer
length (final line with no terminator), and sets `current_pos` past the
buffer length when a CR is the final byte (the following call slices out of
bounds). -/
def get_lines_fuel : Nat → List Nat → Option (List (List Nat))
  | 0, _ => none
  | fuel + 1, s =>
    if s = [] then some []
    else if h : s.findIdx termByte < s.length then
      if s.get ⟨s.findIdx termByte, h⟩ == 13 then
        if s.findIdx termByte + 2 ≤ s.length then
          (get_lines_fuel fuel (s.drop (s.findIdx termByte + 2))).map
            (fun r => s.take (s.findIdx termByte) :: r)
        else none
      else
        (get_lines_fuel fuel (s.drop (s.findIdx termByte + 1))).map
          (fun r => s.take (s.findIdx termByte) :: r)
    else none

/-- `get_lines` run to exhaustion: the logical lines of the buffer, or
`Option.none` when some call to `Lines::next` panics. -/
def get_lines (s : List Nat) : Option (List (List Nat)) :=
  get_lines_fuel (s.length + 1) s

/-- First call of `Lines::next` (used via `lines.peek()` during comment
resolution).  `none` = panic, `some none` = no lines, `some (some l)` = first
line `l`. -/
def firstLine (s : List Nat) : Option (Option (List Nat)) :=
  if s = [] then some none
  else if s.findIdx termByte < s.length then some (some (s.take (s.findIdx termByte)))
  else none

/-- `get_common_comments`: recognize `#`, `//` or `;` at the start of the
file bytes. -/
def get_common_comments (bytes : List Nat) : Option (List Nat) :=
  if [35].isPrefixOf bytes then some [35]
  else if [47, 47].isPrefixOf bytes then some [47, 47]
  else if [59].isPrefixOf bytes then some [59]
  else none

/-- First token of the first line as used for the length bound:
`first_line.split(|b| is_whitespace(*b)).next().unwrap()`. -/
def wsToken (l : List Nat) : List Nat := l.takeWhile (fun b => !(is_whitespace b))

/-- First token of the first line as accepted as the marker:
`first_line.split(|b| b == &32).next().unwrap()`. -/
def spaceToken (l : List Nat) : List Nat := l.takeWhile (fun b => !(b == 32))

/-- Outcome of comment-style resolution.  `errEmptyFile` is the
`"File too short; could not determine comment character."` exit,
`errTooLong` is the `"Failed to get comment string ..."` exit, `panic` is a
`Lines::next` panic while peeking the first line. -/
inductive ResolveResult where
  | ok (c : List Nat)
  | errEmptyFile
  | errTooLong
  | panic
deriving DecidableEq, Repr

/-- Comment-style resolution of `process_file` (lib.rs lines 83-111):
common markers first, then the caller-supplied opening marker, then the
first-line fallback with the optional length bound. -/
def resolveComment (config : List Nat) (callerOpen : Option (List Nat))
    (maxCommentLen : Option Nat) : ResolveResult :=
  match get_common_comments config with
  | some c => .ok c
  | none =>
    match callerOpen with
    | some c => .ok c
    | none =>
      match firstLine config with
      | none => .panic
      | some none => .errEmptyFile
      | some (some fl) =>
        match maxCommentLen with
        | none => .ok (spaceToken fl)
        | some ml =>
          if (wsToken fl).length ≤ ml then .ok (spaceToken fl) else .errTooLong

/-- The `get_status` closure of `process_file`. -/
def get_status (keep : Bool) (enabled disabled : List (List Nat))
    (o : List Nat) : Option Bool :=
  if keep then
    if disabled.contains o then some false
    else if enabled.contains o then some true
    else none
  else some (enabled.contains o)

/-- Tri-state result of evaluating an option expression. -/
inductive OptionEnabled where
  | Yes
  | No
  | Ignore
deriving DecidableEq, Repr

/-- Current annotation scope of the state machine. -/
inductive Segment where
  | none
  | sect (seg : List Nat)
  | opt (e : OptionEnabled)
deriving DecidableEq, Repr

/-!  The generic pattern splitter (`common/src/lib.rs`, `SliceSplit`) for the
fixed-separator predicate `impl SliceSplitPredicate<T> for &[T]`, which
matches when the unconsumed suffix starts with the separator and consumes
`sep.length` elements. -/

/-- One call of `SliceSplit::next`, fuel-indexed (the Rust loop increments
`index` until it either reaches the end or finds a match; fuel
`slice.length + 1 - index` is always sufficient).  Returns the yielded slice
together with the updated `index` and `last_split` fields. -/
def sliceSplitNextF (slice sep : List Nat) :
    Nat → Nat → Nat → Option (List Nat × Nat × Nat)
  | 0, _, _ => none
  | fuel + 1, index, lastSplit =>
    if slice.length ≤ index + 1 then
      if lastSplit ≤ slice.length then
        some (slice.drop lastSplit, index, slice.length + 1)
      else none
    else if lastSplit ≤ index ∧ sep.isPrefixOf (slice.drop index) then
      some ((slice.drop lastSplit).take (index - lastSplit), index, index + sep.length)
    else sliceSplitNextF slice sep fuel (index + 1) lastSplit

/-- One call of `SliceSplit::next` from state `(index, last_split)`. -/
def sliceSplitNext (slice sep : List Nat) (index lastSplit : Nat) :
    Option (List Nat × Nat × Nat) :=
  sliceSplitNextF slice sep (slice.length + 1) index lastSplit

/-- Iterate `SliceSplit::next` collecting every yielded slice. -/
def sliceSplitRun (slice sep : List Nat) : Nat → Nat → Nat → List (List Nat)
  | 0, _, _ => []
  | fuel + 1, index, lastSplit =>
    match sliceSplitNext slice sep index lastSplit with
    | none => []
    | some (item, i, l) => item :: sliceSplitRun slice sep fuel i l

/-- All slices yielded by `common::slice_split(slice, sep)` for a fixed
separator (each yield either ends the iteration or advances `last_split` by
at least one for a nonempty separator, so `slice.length + 2` iterations
exhaust the iterator). -/
def slice_split (slice sep : List Nat) : List (List Nat) :=
  sliceSplitRun slice sep (slice.length + 2) 0 0

/-- Evaluation loop over the split conjuncts of an option directive
(lib.rs lines 158-172).  For each conjunct: strip an optional `!`, look the
identifier up; unknown conjuncts are skipped; the first known conjunct
promotes `Ignore` to `Yes`; `(negate && contains) || (!negate && !contains)`
sets the result to `No` and breaks.  (The Rust code performs the
`Ignore -> Yes` promotion before the `No` test; since the `No` branch
overwrites the result and breaks, folding the promotion into the continue
path is observationally identical.) -/
def evalOptionsLoop (gs : List Nat → Option Bool) :
    List (List Nat) → OptionEnabled → OptionEnabled
  | [], acc => acc
  | o :: rest, acc =>
    match gs (if [33].isPrefixOf o then o.drop 1 else o) with
    | Option.none => evalOptionsLoop gs rest acc
    | Option.some contains =>
      if (([33].isPrefixOf o) && contains) || (!([33].isPrefixOf o) && !contains) then
        OptionEnabled.No
      else evalOptionsLoop gs rest
        (if acc = OptionEnabled.Ignore then OptionEnabled.Yes else acc)

/-- The literal separator `" && "`. -/
def sepAnd : List Nat := [32, 38, 38, 32]

/-- Evaluate a full option expression: split on `" && "` and run the loop
starting from `Ignore`. -/
def evalOptionExpr (gs : List Nat → Option Bool) (expr : List Nat) : OptionEnabled :=
  evalOptionsLoop gs (slice_split expr sepAnd) OptionEnabled.Ignore

/-- `" CORPL "`. -/
def sCORPL : List Nat := [32, 67, 79, 82, 80, 76, 32]
/-- `"end"`. -/
def sEnd : List Nat := [101, 110, 100]
/-- `"end "`. -/
def sEndSpace : List Nat := [101, 110, 100, 32]
/-- `"section "`. -/
def sSection : List Nat := [115, 101, 99, 116, 105, 111, 110, 32]
/-- `"option "`. -/
def sOption : List Nat := [111, 112, 116, 105, 111, 110, 32]

/-- One iteration of the main loop of `process_file` (lib.rs lines 116-269):
given the comment marker `c`, optional closing marker `ec`, status lookup
`gs`, current segment and the current line, produce the bytes emitted for
this line (without the line ending, which every path appends) and the next
segment.  `Option.none` models a panic of the Rust code (out-of-bounds slice
or index, `usize` underflow). -/
def processLine (c : List Nat) (ec : Option (List Nat))
    (gs : List Nat → Option Bool) (s : Segment) (line : List Nat) :
    Option (List Nat × Segment) :=
  let lt := trim line
  if c.length + 1 + 5 + 1 ≤ lt.length ∧ c.isPrefixOf lt ∧
      sCORPL.isPrefixOf (lt.drop c.length) then
    let start := c.length + 1 + 5 + 1
    let isEndRes : Option Bool :=
      match ec with
      | Option.none => some (decide (lt.drop start = sEnd))
      | Option.some e =>
        if start + 4 ≤ lt.length then
          some (decide ((lt.drop start).take 4 = sEndSpace ∧ lt.drop (start + 4) = e))
        else Option.none
    match isEndRes with
    | Option.none => Option.none
    | Option.some isEnd =>
      if isEnd then some (line, Segment.none)
      else if sSection.isPrefixOf (lt.drop start) then
        let ts := first_non_whitespace line
        let segStr := line.drop (ts + start + 8)
        some (line, if ec.isSome then Segment.none else Segment.sect segStr)
      else if sOption.isPrefixOf (lt.drop start) then
        let start3 := start + 7
        match ec with
        | Option.none =>
          some (line, Segment.opt (evalOptionsLoop gs (slice_split (lt.drop start3) sepAnd)
            OptionEnabled.Ignore))
        | Option.some e =>
          if e.length + 1 ≤ lt.length then
            let endIdx := lt.length - e.length - 1
            if start3 ≤ endIdx then
              some (line, Segment.opt (evalOptionsLoop gs
                (slice_split ((lt.drop start3).take (endIdx - start3)) sepAnd)
                OptionEnabled.Ignore))
            else Option.none
          else Option.none
      else some (line, s)
  else
    match s with
    | Segment.sect segStr =>
      if lt = [] then some (line, s)
      else if ec.isSome then some (line, s)
      else
        let activate : Option Bool :=
          match get_last line c with
          | Option.none => some false
          | Option.some idBytes => gs idBytes
        match activate with
        | Option.none => some (line, s)
        | Option.some activate =>
          let start := first_non_whitespace line
          let currentlyActive :=
            !(c.isPrefixOf (line.drop start) && line.get? (start + c.length) == some 32)
          if currentlyActive = activate then some (line, s)
          else if activate = false then
            if segStr.isPrefixOf (line.drop start) then
              some (line.take start ++ c ++ [32] ++ line.drop (start + segStr.length), s)
            else some (line, s)
          else
            some (line.take start ++ segStr ++ line.drop (start + c.length + 1), s)
    | Segment.opt en =>
      if lt = [] then some (line, s)
      else
        let start := first_non_whitespace line
        let pre := c.isPrefixOf (line.drop start)
        if pre ∧ line.length ≤ start + c.length then Option.none
        else
          let currentlyActive := !(pre && line.get? (start + c.length) == some 32)
          match en, currentlyActive with
          | OptionEnabled.Ignore, _ => some (line, s)
          | OptionEnabled.Yes, true => some (line, s)
          | OptionEnabled.No, false => some (line, s)
          | OptionEnabled.No, true =>
            some (line.take start ++ c ++ [32] ++ line.drop start ++
              (match ec with | Option.none => [] | Option.some e => 32 :: e), s)
          | OptionEnabled.Yes, false =>
            match ec with
            | Option.none => some (line.take start ++ line.drop (start + c.length + 1), s)
            | Option.some e =>
              let e2 := last_non_whitespace line
              if e.length + 1 ≤ e2 then
                let b := e2 - e.length - 1
                if start + c.length + 1 ≤ b then
                  some (line.take start ++
                    ((line.drop (start + c.length + 1)).take (b - (start + c.length + 1))) ++
                    line.drop e2, s)
                else Option.none
              else Option.none
    | Segment.none => some (line, s)

/-- The main loop of `process_file` over all lines, collecting the emitted
content of each line (each followed in the output buffer by the line
ending). -/
def processLoop (c : List Nat) (ec : Option (List Nat))
    (gs : List Nat → Option Bool) : Segment → List (List Nat) → Option (List (List Nat))
  | _, [] => some []
  | s, l :: ls =>
    match processLine c ec gs s l with
    | Option.none => Option.none
    | Option.some (m, t) =>
      match processLoop c ec gs t ls with
      | Option.none => Option.none
      | Option.some ms => some (m :: ms)

/-- `process_file` with an already-resolved comment marker: split into lines,
run the loop from `Segment.none`, and emit every line followed by the line
ending detected from the original bytes.  Returns the bytes written back, or
`Option.none` if the Rust code would panic. -/
def processWithComment (c : List Nat) (ec : Option (List Nat))
    (gs : List Nat → Option Bool) (config : List Nat) : Option (List Nat) :=
  match get_lines config with
  | Option.none => Option.none
  | Option.some ls =>
    match processLoop c ec gs Segment.none ls with
    | Option.none => Option.none
    | Option.some ms => some ((ms.map (fun m => m ++ get_line_ending config)).flatten)

/-- Full `process_file` on the file contents `config`: resolve the comment
marker (the closing marker is always the caller-supplied one), then process.
`Option.none` covers every fatal outcome before the write-back (resolution
failure or panic). -/
def process_file (config : List Nat) (caller : Option (List Nat × Option (List Nat)))
    (enabled disabled : List (List Nat)) (keep : Bool) (maxCommentLen : Option Nat) :
    Option (List Nat) :=
  let ec := caller.bind (fun p => p.2)
  match resolveComment config (caller.map (fun p => p.1)) maxCommentLen with
  | ResolveResult.ok c => processWithComment c ec (get_status keep enabled disabled) config
  | _ => Option.none

/-!  Spec-side definitions, used to state the claims (refinement targets). -/

/-- Modelled from the spec: position of the first (leftmost) occurrence of
`sep` in `slice`, the reference notion of "non-overlapping left-to-right
occurrence" of §4.1. -/
def findOcc (sep : List Nat) : List Nat → Option Nat
  | [] => if sep.isPrefixOf ([] : List Nat) then some 0 else none
  | a :: rest =>
    if sep.isPrefixOf (a :: rest) then some 0
    else (findOcc sep rest).map (fun j => j + 1)

/-- Modelled from the spec (§4.1), fuel-indexed: split at every
non-overlapping left-to-right occurrence of the separator, resume
immediately after each consumed match, and always yield the final slice. -/
def splitSpecF (sep : List Nat) : Nat → List Nat → List (List Nat)
  | 0, slice => [slice]
  | fuel + 1, slice =>
    match findOcc sep slice with
    | none => [slice]
    | some j => slice.take j :: splitSpecF sep fuel (slice.drop (j + sep.length))

/-- Modelled from the spec (§4.1): the reference splitting of `slice` on the
separator `sep`. -/
def splitSpec (sep slice : List Nat) : List (List Nat) :=
  splitSpecF sep (slice.length + 1) slice

/-- Concatenate slices re-inserting the separator between adjacent ones
(the reconstruction of §4.1). -/
def joinSep (sep : List Nat) : List (List Nat) → List Nat
  | [] => []
  | [x] => x
  | x :: y :: rest => x ++ sep ++ joinSep sep (y :: rest)

/-- A byte string free of line terminators. -/
def termFree (l : List Nat) : Bool := l.all (fun b => !(termByte b))

/-- Modelled from the spec (§4.4): the negation flag of a conjunct. -/
def negFlag (o : List Nat) : Bool := [33].isPrefixOf o

/-- Modelled from the spec (§4.4): the identifier of a conjunct, after
stripping an optional leading `!`. -/
def stripNeg (o : List Nat) : List Nat := if [33].isPrefixOf o then o.drop 1 else o

/-- Modelled from the spec (§4.4/§8): a conjunct is satisfied when its
identifier's status is known and agrees with the (possibly negated) polarity:
`!x` with `x` disabled, or `x` with `x` enabled. -/
def satisfied (gs : List Nat → Option Bool) (o : List Nat) : Prop :=
  gs (stripNeg o) = some (!(negFlag o))

/-- Modelled from the spec (§4.4/§8): a conjunct is unsatisfied when its
identifier's status is known and disagrees with the polarity: `!x` with `x`
enabled, or `x` with `x` disabled. -/
def unsatisfied (gs : List Nat → Option Bool) (o : List Nat) : Prop :=
  gs (stripNeg o) = some (negFlag o)

/-!  Concrete inputs used by the scenario claims.  Byte lists spell the ASCII
texts given in the comments. -/

/-- `"// CORPL section port=80\nport=80\n// CORPL end\n"` (scenario B). -/
def configB : List Nat := [47, 47, 32, 67, 79, 82, 80, 76, 32, 115, 101, 99, 116, 105, 111, 110, 32, 112, 111, 114, 116, 61, 56, 48, 10, 112, 111, 114, 116, 61, 56, 48, 10, 47, 47, 32, 67, 79, 82, 80, 76, 32, 101, 110, 100, 10]

/-- `"// CORPL section port=80\n// \n// CORPL end\n"`: what the engine
actually produces on scenario B. -/
def outB : List Nat := [47, 47, 32, 67, 79, 82, 80, 76, 32, 115, 101, 99, 116, 105, 111, 110, 32, 112, 111, 114, 116, 61, 56, 48, 10, 47, 47, 32, 10, 47, 47, 32, 67, 79, 82, 80, 76, 32, 101, 110, 100, 10]

/-- `"// CORPL section port=80\n// port=80\n// CORPL end\n"`: the output the
claim asserts for scenario B. -/
def claimedB : List Nat := [47, 47, 32, 67, 79, 82, 80, 76, 32, 115, 101, 99, 116, 105, 111, 110, 32, 112, 111, 114, 116, 61, 56, 48, 10, 47, 47, 32, 112, 111, 114, 116, 61, 56, 48, 10, 47, 47, 32, 67, 79, 82, 80, 76, 32, 101, 110, 100, 10]

/-- `";;config;;\n"` (scenario C). -/
def configC5 : List Nat := [59, 59, 99, 111, 110, 102, 105, 103, 59, 59, 10]

/-- `"**config**\n"`: a first line that does not start with a common marker. -/
def configStars : List Nat := [42, 42, 99, 111, 110, 102, 105, 103, 42, 42, 10]

/-- `"ab\tcd x\n"`: the first space-delimited token contains a tab. -/
def configTab : List Nat := [97, 98, 9, 99, 100, 32, 120, 10]

/-- `"# CORPL option foo\nsecret=1\n# CORPL end\n"` (scenario D input). -/
def configD : List Nat := [35, 32, 67, 79, 82, 80, 76, 32, 111, 112, 116, 105, 111, 110, 32, 102, 111, 111, 10, 115, 101, 99, 114, 101, 116, 61, 49, 10, 35, 32, 67, 79, 82, 80, 76, 32, 101, 110, 100, 10]

/-- `"# CORPL option foo\n# secret=1\n# CORPL end\n"` (scenario D output;
also the scenario A input, whose processing is idempotent). -/
def outD : List Nat := [35, 32, 67, 79, 82, 80, 76, 32, 111, 112, 116, 105, 111, 110, 32, 102, 111, 111, 10, 35, 32, 115, 101, 99, 114, 101, 116, 61, 49, 10, 35, 32, 67, 79, 82, 80, 76, 32, 101, 110, 100, 10]

/-- `"# CORPL option foo\n# # x\n# CORPL end\n"`: the data line starts with a
doubled `"# "`. -/
def configX : List Nat := [35, 32, 67, 79, 82, 80, 76, 32, 111, 112, 116, 105, 111, 110, 32, 102, 111, 111, 10, 35, 32, 35, 32, 120, 10, 35, 32, 67, 79, 82, 80, 76, 32, 101, 110, 100, 10]

/-- `"# CORPL option foo\n# x\n# CORPL end\n"`: first run's output on
`configX`. -/
def outX1 : List Nat := [35, 32, 67, 79, 82, 80, 76, 32, 111, 112, 116, 105, 111, 110, 32, 102, 111, 111, 10, 35, 32, 120, 10, 35, 32, 67, 79, 82, 80, 76, 32, 101, 110, 100, 10]

/-- `"# CORPL option foo\nx\n# CORPL end\n"`: second run's output on
`configX`. -/
def outX2 : List Nat := [35, 32, 67, 79, 82, 80, 76, 32, 111, 112, 116, 105, 111, 110, 32, 102, 111, 111, 10, 120, 10, 35, 32, 67, 79, 82, 80, 76, 32, 101, 110, 100, 10]

/-- `"# CORPL x\n"`: a directive-shaped line shorter than `start + 4`. -/
def configEndPanic : List Nat := [35, 32, 67, 79, 82, 80, 76, 32, 120, 10]

/-- `"# CORPL option x\n"`: an option directive whose closing-marker end
offset falls before the expression start. -/
def configOptPanic : List Nat := [35, 32, 67, 79, 82, 80, 76, 32, 111, 112, 116, 105, 111, 110, 32, 120, 10]

/-- `"# CORPL option foo\n#\n# CORPL end\n"`: a data line that is exactly the
comment marker. -/
def configMarkerLine : List Nat := [35, 32, 67, 79, 82, 80, 76, 32, 111, 112, 116, 105, 111, 110, 32, 102, 111, 111, 10, 35, 10, 35, 32, 67, 79, 82, 80, 76, 32, 101, 110, 100, 10]

/-- `"a && b && !c"` (scenario E). -/
def exprABC : List Nat := [97, 32, 38, 38, 32, 98, 32, 38, 38, 32, 33, 99]

/-- `"foo"`. -/
def fooBytes : List Nat := [102, 111, 111]

/-!  Theory of the generic pattern splitter. -/

theorem ssNextF_fuel (slice sep : List Nat) :
    ∀ f₁ f₂ index lastSplit, slice.length - index < f₁ → slice.length - index < f₂ →
      sliceSplitNextF slice sep f₁ index lastSplit =
        sliceSplitNextF slice sep f₂ index lastSplit := by
  intro f₁
  induction f₁ with
  | zero => intro f₂ index l h1 _; omega
  | succ f ih =>
    intro f₂ index l h1 h2
    match f₂, h2 with
    | g + 1, h2 =>
      simp only [sliceSplitNextF]
      split
      · rfl
      next hlen =>
        split
        · rfl
        · exact ih g (index + 1) l (by omega) (by omega)

/-- Unfolding of `SliceSplit::next` when the scan position has reached the
final index: yield the tail slice from `last_split` (or stop). -/
theorem sliceSplitNext_ge (slice sep : List Nat) (index lastSplit : Nat)
    (h : slice.length ≤ index + 1) :
    sliceSplitNext slice sep index lastSplit =
      if lastSplit ≤ slice.length then
        some (slice.drop lastSplit, index, slice.length + 1)
      else none := by
  unfold sliceSplitNext sliceSplitNextF
  rw [if_pos h]

/-- Unfolding of `SliceSplit::next` at a scan position strictly before the
final index: match here (when allowed and the separator is a prefix of the
rest) or advance the scan. -/
theorem sliceSplitNext_lt (slice sep : List Nat) (index lastSplit : Nat)
    (h : index + 1 < slice.length) :
    sliceSplitNext slice sep index lastSplit =
      if lastSplit ≤ index ∧ sep.isPrefixOf (slice.drop index) then
        some ((slice.drop lastSplit).take (index - lastSplit), index, index + sep.length)
      else sliceSplitNext slice sep (index + 1) lastSplit := by
  conv_lhs => unfold sliceSplitNext sliceSplitNextF
  rw [if_neg (by omega)]
  split
  · rfl
  · exact ssNextF_fuel slice sep _ _ (index + 1) lastSplit (by omega) (by omega)

/-- After the final slice has been yielded (`last_split > slice.length`),
every further call returns `none`. -/
theorem sliceSplitNext_none_of_lt (slice sep : List Nat) :
    ∀ k index lastSplit, slice.length - index ≤ k → slice.length < lastSplit →
      sliceSplitNext slice sep index lastSplit = none := by
  intro k
  induction k with
  | zero =>
    intro index l hk hl
    rw [sliceSplitNext_ge slice sep index l (by omega), if_neg (by omega)]
  | succ k ih =>
    intro index l hk hl
    by_cases h : slice.length ≤ index + 1
    · rw [sliceSplitNext_ge slice sep index l h, if_neg (by omega)]
    · rw [sliceSplitNext_lt slice sep index l (by omega), if_neg, ih (index + 1) l (by omega) hl]
      rintro ⟨h1, _⟩
      omega

theorem sliceSplitRun_of_gt (slice sep : List Nat) :
    ∀ fuel index lastSplit, slice.length < lastSplit →
      sliceSplitRun slice sep fuel index lastSplit = [] := by
  intro fuel index l hl
  cases fuel with
  | zero => rfl
  | succ fuel =>
    simp only [sliceSplitRun,
      sliceSplitNext_none_of_lt slice sep (slice.length - index) index l le_rfl hl]

theorem findOcc_isPrefixOf {sep s : List Nat} {j : Nat} (h : findOcc sep s = some j) :
    sep.isPrefixOf (s.drop j) = true := by
  induction s generalizing j with
  | nil =>
    unfold findOcc at h
    split at h
    · next hp => cases h; simpa using hp
    · cases h
  | cons a rest ih =>
    unfold findOcc at h
    split at h
    · next hp => cases h; simpa using hp
    · next hp =>
      rcases hfo : findOcc sep rest with _ | j0
      · rw [hfo] at h; cases h
      · rw [hfo] at h
        simp only [Option.map_some', Option.some.injEq] at h
        subst h
        simpa using ih hfo

theorem findOcc_min {sep s : List Nat} {j : Nat} (h : findOcc sep s = some j) :
    ∀ k, k < j → sep.isPrefixOf (s.drop k) = false := by
  induction s generalizing j with
  | nil =>
    unfold findOcc at h
    split at h
    · cases h; omega
    · cases h
  | cons a rest ih =>
    unfold findOcc at h
    split at h
    · cases h; omega
    · next hp =>
      rcases hfo : findOcc sep rest with _ | j0
      · rw [hfo] at h; cases h
      · rw [hfo] at h
        simp only [Option.map_some', Option.some.injEq] at h
        subst h
        intro k hk
        cases k with
        | zero => simpa using Bool.of_not_eq_true hp
        | succ k => simpa using ih hfo k (by omega)

theorem findOcc_none {sep s : List Nat} (h : findOcc sep s = none) :
    ∀ k, sep.isPrefixOf (s.drop k) = false := by
  induction s with
  | nil =>
    intro k
    unfold findOcc at h
    split at h
    · cases h
    · next hp => simpa using Bool.of_not_eq_true hp
  | cons a rest ih =>
    intro k
    unfold findOcc at h
    split at h
    · cases h
    · next hp =>
      rcases hfo : findOcc sep rest with _ | j0
      · cases k with
        | zero => simpa using Bool.of_not_eq_true hp
        | succ k => simpa using ih hfo k
      · rw [hfo] at h; cases h

/-- Converse: a position that is an occurrence, with no occurrence before it,
is the one `findOcc` returns. -/
theorem findOcc_eq_some {sep s : List Nat} {j : Nat}
    (hpre : sep.isPrefixOf (s.drop j) = true)
    (hmin : ∀ k, k < j → sep.isPrefixOf (s.drop k) = false) :
    findOcc sep s = some j := by
  rcases hfo : findOcc sep s with _ | j0
  · rw [findOcc_none hfo j] at hpre
    cases hpre
  · rcases Nat.lt_trichotomy j0 j with h | h | h
    · have hp0 := findOcc_isPrefixOf hfo
      rw [hmin j0 h] at hp0
      cases hp0
    · rw [h]
    · rw [findOcc_min hfo j h] at hpre
      cases hpre

/-- If the scan position is at the final index and no occurrence was seen in
the scanned region, there is no occurrence at all (a separator of length at
least 2 cannot fit at or after the final index). -/
theorem findOcc_none_near_end (slice sep : List Nat) (hsep : 2 ≤ sep.length)
    (index l : Nat) (hend : slice.length ≤ index + 1)
    (hno : ∀ j, l ≤ j → j < index → sep.isPrefixOf (slice.drop j) = false) :
    findOcc sep (slice.drop l) = none := by
  rcases hfind : findOcc sep (slice.drop l) with _ | occ
  · rfl
  · exfalso
    have hpre := findOcc_isPrefixOf hfind
    rw [List.drop_drop] at hpre
    have hlen := (List.isPrefixOf_iff_prefix.mp hpre).length_le
    rw [List.length_drop] at hlen
    by_cases hj : l + occ < index
    · rw [hno (l + occ) (by omega) hj] at hpre
      exact Bool.noConfusion hpre
    · omega

/-- Characterization of one `next` call in terms of the leftmost occurrence
of the separator at or after `last_split`, provided the separator has length
at least 2 and no occurrence lies in the already-scanned region
`[last_split, index)`. -/
theorem sliceSplitNext_char (slice sep : List Nat) (hsep : 2 ≤ sep.length) :
    ∀ k index lastSplit, slice.length - index ≤ k → lastSplit ≤ slice.length →
      (∀ j, lastSplit ≤ j → j < index → sep.isPrefixOf (slice.drop j) = false) →
      (match findOcc sep (slice.drop lastSplit) with
       | some occ => sliceSplitNext slice sep index lastSplit =
           some ((slice.drop lastSplit).take occ, lastSplit + occ,
             lastSplit + occ + sep.length)
       | none => ∃ x, sliceSplitNext slice sep index lastSplit =
           some (slice.drop lastSplit, x, slice.length + 1)) := by
  intro k
  induction k with
  | zero =>
    intro index l hk hl hno
    rw [findOcc_none_near_end slice sep hsep index l (by omega) hno]
    exact ⟨index, by rw [sliceSplitNext_ge slice sep index l (by omega), if_pos hl]⟩
  | succ k ih =>
    intro index l hk hl hno
    by_cases hend : slice.length ≤ index + 1
    · rw [findOcc_none_near_end slice sep hsep index l hend hno]
      exact ⟨index, by rw [sliceSplitNext_ge slice sep index l hend, if_pos hl]⟩
    · rw [sliceSplitNext_lt slice sep index l (by omega)]
      by_cases hmatch : l ≤ index ∧ sep.isPrefixOf (slice.drop index)
      · rw [if_pos hmatch]
        obtain ⟨hli, hpre⟩ := hmatch
        have hfind : findOcc sep (slice.drop l) = some (index - l) := by
          apply findOcc_eq_some
          · rw [List.drop_drop]
            have heq : l + (index - l) = index := by omega
            rw [heq]
            exact hpre
          · intro j hj
            rw [List.drop_drop]
            exact hno (l + j) (by omega) (by omega)
        rw [hfind]
        show some (List.take (index - l) (List.drop l slice), index, index + sep.length) =
          some (List.take (index - l) (List.drop l slice), l + (index - l),
            l + (index - l) + sep.length)
        have h1 : l + (index - l) = index := by omega
        rw [h1]
      · rw [if_neg hmatch]
        by_cases hli : l ≤ index
        · have hnotpre : sep.isPrefixOf (slice.drop index) = false := by
            rcases hb : sep.isPrefixOf (slice.drop index) with _ | _
            · rfl
            · exact absurd ⟨hli, hb⟩ hmatch
          exact ih (index + 1) l (by omega) hl (fun j hj1 hj2 => by
            by_cases hji : j < index
            · exact hno j hj1 hji
            · have : j = index := by omega
              rw [this]
              exact hnotpre)
        · exact ih (index + 1) l (by omega) hl (fun j hj1 hj2 => hno j hj1 (by omega))

theorem findOcc_nil_of_ne {sep : List Nat} (hsep : 1 ≤ sep.length) :
    findOcc sep [] = none := by
  cases sep with
  | nil => simp at hsep
  | cons a t => rfl

theorem splitSpecF_fuel (sep : List Nat) (hsep : 1 ≤ sep.length) :
    ∀ f₁ f₂ s, s.length < f₁ → s.length < f₂ →
      splitSpecF sep f₁ s = splitSpecF sep f₂ s := by
  intro f₁
  induction f₁ with
  | zero => intro f₂ s h1 _; omega
  | succ f ih =>
    intro f₂ s h1 h2
    match f₂, h2 with
    | g + 1, h2 =>
      rcases hfo : findOcc sep s with _ | k
      · simp only [splitSpecF, hfo]
      · simp only [splitSpecF, hfo]
        have hpre := findOcc_isPrefixOf hfo
        have hlen := (List.isPrefixOf_iff_prefix.mp hpre).length_le
        rw [List.length_drop] at hlen
        have hs : s ≠ [] := by
          intro hnil
          rw [hnil, findOcc_nil_of_ne hsep] at hfo
          cases hfo
        have hslen : 1 ≤ s.length := by
          cases s with
          | nil => exact absurd rfl hs
          | cons a t => simp
        rw [ih g (s.drop (k + sep.length)) (by rw [List.length_drop]; omega)
          (by rw [List.length_drop]; omega)]

theorem splitSpec_none {sep s : List Nat} (h : findOcc sep s = none) :
    splitSpec sep s = [s] := by
  unfold splitSpec splitSpecF
  rw [h]

theorem splitSpec_some {sep s : List Nat} {k : Nat} (hsep : 1 ≤ sep.length)
    (h : findOcc sep s = some k) :
    splitSpec sep s = s.take k :: splitSpec sep (s.drop (k + sep.length)) := by
  have hpre := findOcc_isPrefixOf h
  have hlen := (List.isPrefixOf_iff_prefix.mp hpre).length_le
  rw [List.length_drop] at hlen
  have hs : s ≠ [] := by
    intro hnil
    rw [hnil, findOcc_nil_of_ne hsep] at h
    cases h
  have hslen : 1 ≤ s.length := by
    cases s with
    | nil => exact absurd rfl hs
    | cons a t => simp
  show splitSpecF sep (s.length + 1) s = _
  simp only [splitSpecF, h]
  congr 1
  show splitSpecF sep s.length _ = splitSpecF sep ((s.drop (k + sep.length)).length + 1) _
  exact splitSpecF_fuel sep hsep s.length _ _
    (by rw [List.length_drop]; omega) (by omega)

/-- The run of the splitter from a state `(index, last_split)` with
`index ≤ last_split ≤ slice.length` yields exactly the reference splitting of
the unconsumed suffix, for separators of length at least 2. -/
theorem sliceSplitRun_char (slice sep : List Nat) (hsep : 2 ≤ sep.length) :
    ∀ fuel l index, index ≤ l → l ≤ slice.length → slice.length + 2 - l ≤ fuel →
      sliceSplitRun slice sep fuel index l = splitSpec sep (slice.drop l) := by
  intro fuel
  induction fuel with
  | zero => intro l index _ hl hf; omega
  | succ fuel ih =>
    intro l index hil hl hf
    have hchar := sliceSplitNext_char slice sep hsep (slice.length - index) index l le_rfl hl
      (fun j hj1 hj2 => by omega)
    simp only [sliceSplitRun]
    rcases hfo : findOcc sep (slice.drop l) with _ | k <;> rw [hfo] at hchar
    · obtain ⟨x, hnext⟩ := hchar
      simp only [hnext]
      rw [sliceSplitRun_of_gt slice sep fuel x (slice.length + 1) (by omega),
        splitSpec_none hfo]
    · have hpre := findOcc_isPrefixOf hfo
      rw [List.drop_drop] at hpre
      have hlen := (List.isPrefixOf_iff_prefix.mp hpre).length_le
      rw [List.length_drop] at hlen
      simp only [hchar]
      rw [ih (l + k + sep.length) (l + k) (by omega) (by omega) (by omega)]
      rw [splitSpec_some (by omega) hfo, List.drop_drop]
      have heq : l + (k + sep.length) = l + k + sep.length := by omega
      rw [heq]

/-- For a fixed separator of length at least 2, the iterator yields exactly
the reference splitting. -/
theorem slice_split_eq_splitSpec (slice sep : List Nat) (hsep : 2 ≤ sep.length) :
    slice_split slice sep = splitSpec sep slice := by
  unfold slice_split
  rw [sliceSplitRun_char slice sep hsep (slice.length + 2) 0 0 le_rfl (Nat.zero_le _) (by omega),
    List.drop_zero]

theorem splitSpecF_ne_nil (sep : List Nat) (f : Nat) (s : List Nat) :
    splitSpecF sep f s ≠ [] := by
  cases f with
  | zero => simp [splitSpecF]
  | succ f =>
    simp only [splitSpecF]
    rcases findOcc sep s with _ | k <;> simp

/-- Interleaving the separator between the reference slices reconstructs the
input. -/
theorem joinSep_splitSpec (sep : List Nat) (hsep : 1 ≤ sep.length) :
    ∀ n s, s.length ≤ n → joinSep sep (splitSpec sep s) = s := by
  intro n
  induction n with
  | zero =>
    intro s hs
    have : s = [] := List.eq_nil_of_length_eq_zero (by omega)
    subst this
    rw [splitSpec_none (findOcc_nil_of_ne hsep)]
    rfl
  | succ n ih =>
    intro s hs
    rcases hfo : findOcc sep s with _ | k
    · rw [splitSpec_none hfo]
      rfl
    · have hpre := findOcc_isPrefixOf hfo
      have hlen := (List.isPrefixOf_iff_prefix.mp hpre).length_le
      rw [List.length_drop] at hlen
      have hs0 : s ≠ [] := by
        intro hnil
        rw [hnil, findOcc_nil_of_ne hsep] at hfo
        cases hfo
      have hslen : 1 ≤ s.length := by
        cases s with
        | nil => exact absurd rfl hs0
        | cons a t => simp
      rw [splitSpec_some hsep hfo]
      obtain ⟨y, t, hyt⟩ : ∃ y t, splitSpec sep (s.drop (k + sep.length)) = y :: t := by
        rcases hsp : splitSpec sep (s.drop (k + sep.length)) with _ | ⟨y, t⟩
        · exact absurd hsp (splitSpecF_ne_nil sep _ _)
        · exact ⟨y, t, rfl⟩
      rw [hyt]
      show s.take k ++ sep ++ joinSep sep (y :: t) = s
      rw [← hyt, ih (s.drop (k + sep.length)) (by rw [List.length_drop]; omega)]
      obtain ⟨u, hu⟩ := List.isPrefixOf_iff_prefix.mp hpre
      have hdrop : s.drop (k + sep.length) = u := by
        rw [← List.drop_drop, ← hu, List.drop_left]
      rw [hdrop, List.append_assoc, hu, List.take_append_drop]

theorem sliceSplitNext_ne_none (slice sep : List Nat) :
    ∀ k index lastSplit, slice.length - index ≤ k → lastSplit ≤ slice.length →
      sliceSplitNext slice sep index lastSplit ≠ none := by
  intro k
  induction k with
  | zero =>
    intro index l hk hl
    rw [sliceSplitNext_ge slice sep index l (by omega), if_pos hl]
    simp
  | succ k ih =>
    intro index l hk hl
    by_cases hend : slice.length ≤ index + 1
    · rw [sliceSplitNext_ge slice sep index l hend, if_pos hl]
      simp
    · rw [sliceSplitNext_lt slice sep index l (by omega)]
      split
      · simp
      · exact ih (index + 1) l (by omega) hl

/-- The iterator always yields at least one slice (the final slice is always
yielded, even on an empty input). -/
theorem slice_split_ne_nil (slice sep : List Nat) : slice_split slice sep ≠ [] := by
  show sliceSplitRun slice sep (slice.length + 1 + 1) 0 0 ≠ []
  simp only [sliceSplitRun]
  rcases hn : sliceSplitNext slice sep 0 0 with _ | ⟨item, i, l⟩
  · exact absurd hn (sliceSplitNext_ne_none slice sep slice.length 0 0 (by omega) (by omega))
  · simp

/-!  Theory of the option-expression evaluator. -/

theorem bool_cond_eq (n b : Bool) : ((n && b) || (!n && !b)) = (b == n) := by
  cases n <;> cases b <;> rfl

theorem not_unsatisfied_of_none {gs : List Nat → Option Bool} {o : List Nat}
    (h : gs (stripNeg o) = none) : ¬ unsatisfied gs o := by
  simp [unsatisfied, h]

theorem not_satisfied_of_unsat {gs : List Nat → Option Bool} {o : List Nat}
    (h : unsatisfied gs o) : ¬ satisfied gs o := by
  unfold unsatisfied at h
  unfold satisfied
  rw [h]
  intro hcontra
  have h2 := Option.some.inj hcontra
  cases hn : negFlag o <;> rw [hn] at h2 <;> simp at h2

/-- The loop returns `No` exactly when some conjunct is unsatisfied,
whatever the accumulator (as long as it is not already `No`). -/
theorem evalLoop_no_iff (gs : List Nat → Option Bool) :
    ∀ opts acc, acc ≠ OptionEnabled.No →
      (evalOptionsLoop gs opts acc = OptionEnabled.No ↔ ∃ o ∈ opts, unsatisfied gs o) := by
  intro opts
  induction opts with
  | nil =>
    intro acc hacc
    constructor
    · intro h
      exact absurd h hacc
    · rintro ⟨o, ho, -⟩
      cases ho
  | cons o rest ih =>
    intro acc hacc
    rcases hgs : gs (stripNeg o) with _ | b
    · have hraw := hgs
      simp only [stripNeg] at hraw
      simp only [evalOptionsLoop, hraw]
      rw [ih acc hacc]
      constructor
      · rintro ⟨o1, ho1, hu⟩
        exact ⟨o1, List.mem_cons_of_mem o ho1, hu⟩
      · rintro ⟨o1, ho1, hu⟩
        rcases List.mem_cons.mp ho1 with rfl | ho1
        · exact absurd hu (not_unsatisfied_of_none hgs)
        · exact ⟨o1, ho1, hu⟩
    · have hraw := hgs
      simp only [stripNeg] at hraw
      simp only [evalOptionsLoop, hraw, bool_cond_eq]
      by_cases hb : b = negFlag o
      · have : (b == [33].isPrefixOf o) = true := by
          rw [hb]
          simp [negFlag]
        rw [this, if_pos rfl]
        constructor
        · intro _
          refine ⟨o, List.mem_cons_self o rest, ?_⟩
          unfold unsatisfied
          rw [hgs, hb]
        · intro _
          rfl
      · have : (b == [33].isPrefixOf o) = false := by
          simp only [negFlag] at hb
          simp [hb]
        rw [this]
        simp only [Bool.false_eq_true, if_false]
        have hacc1 : (if acc = OptionEnabled.Ignore then OptionEnabled.Yes else acc) ≠
            OptionEnabled.No := by
          split
          · simp
          · exact hacc
        rw [ih _ hacc1]
        constructor
        · rintro ⟨o1, ho1, hu⟩
          exact ⟨o1, List.mem_cons_of_mem o ho1, hu⟩
        · rintro ⟨o1, ho1, hu⟩
          rcases List.mem_cons.mp ho1 with rfl | ho1
          · unfold unsatisfied at hu
            rw [hgs] at hu
            exact absurd (Option.some.inj hu) hb
          · exact ⟨o1, ho1, hu⟩

/-- The loop returns `Yes` exactly when every conjunct is satisfied, for a
nonempty conjunct list of known identifiers (starting from `Ignore`), and
with no nonemptiness requirement when starting from `Yes`. -/
theorem evalLoop_yes_iff (gs : List Nat → Option Bool) :
    ∀ opts, (∀ o ∈ opts, (gs (stripNeg o)).isSome = true) →
      ((evalOptionsLoop gs opts OptionEnabled.Yes = OptionEnabled.Yes ↔
          ∀ o ∈ opts, satisfied gs o) ∧
       (opts ≠ [] →
         (evalOptionsLoop gs opts OptionEnabled.Ignore = OptionEnabled.Yes ↔
           ∀ o ∈ opts, satisfied gs o))) := by
  intro opts
  induction opts with
  | nil =>
    intro _
    refine ⟨?_, fun h => absurd rfl h⟩
    constructor
    · intro _ o ho
      cases ho
    · intro _
      rfl
  | cons o rest ih =>
    intro hknown
    have hb : ∃ b, gs (stripNeg o) = some b := by
      have := hknown o (List.mem_cons_self o rest)
      exact Option.isSome_iff_exists.mp this
    obtain ⟨b, hgs⟩ := hb
    have hraw := hgs
    simp only [stripNeg] at hraw
    have ihrest := ih (fun o1 ho1 => hknown o1 (List.mem_cons_of_mem o ho1))
    by_cases hcond : b = negFlag o
    · have hc : (b == [33].isPrefixOf o) = true := by
        rw [hcond]
        simp [negFlag]
      have hno : ∀ acc, evalOptionsLoop gs (o :: rest) acc = OptionEnabled.No := by
        intro acc
        simp only [evalOptionsLoop, hraw, bool_cond_eq, hc]
        simp
      have hnotsat : ¬ satisfied gs o := by
        apply not_satisfied_of_unsat
        unfold unsatisfied
        rw [hgs, hcond]
      constructor
      · rw [hno OptionEnabled.Yes]
        constructor
        · intro h
          cases h
        · intro hall
          exact absurd (hall o (List.mem_cons_self o rest)) hnotsat
      · intro _
        rw [hno OptionEnabled.Ignore]
        constructor
        · intro h
          cases h
        · intro hall
          exact absurd (hall o (List.mem_cons_self o rest)) hnotsat
    · have hc : (b == [33].isPrefixOf o) = false := by
        simp only [negFlag] at hcond
        simp [hcond]
      have hsat : satisfied gs o := by
        unfold satisfied
        rw [hgs]
        have hne : ∀ x y : Bool, x ≠ y → x = !y := by decide
        rw [hne b (negFlag o) hcond]
      have hstep : ∀ acc, acc ≠ OptionEnabled.Ignore →
          evalOptionsLoop gs (o :: rest) acc = evalOptionsLoop gs rest acc := by
        intro acc hne
        simp only [evalOptionsLoop, hraw, bool_cond_eq, hc]
        simp only [Bool.false_eq_true, if_false]
        rw [if_neg hne]
      have hstepI : evalOptionsLoop gs (o :: rest) OptionEnabled.Ignore =
          evalOptionsLoop gs rest OptionEnabled.Yes := by
        simp only [evalOptionsLoop, hraw, bool_cond_eq, hc]
        simp only [Bool.false_eq_true, if_false]
        rfl
      have hmem : (∀ o1 ∈ o :: rest, satisfied gs o1) ↔ ∀ o1 ∈ rest, satisfied gs o1 := by
        constructor
        · intro hall o1 ho1
          exact hall o1 (List.mem_cons_of_mem o ho1)
        · intro hall o1 ho1
          rcases List.mem_cons.mp ho1 with rfl | ho1
          · exact hsat
          · exact hall o1 ho1
      refine ⟨?_, fun _ => ?_⟩
      · rw [hstep OptionEnabled.Yes (by simp), ihrest.1, hmem]
      · rw [hstepI, ihrest.1, hmem]

/-- Conjuncts with unknown status leave the accumulator untouched. -/
theorem evalLoop_ignore (gs : List Nat → Option Bool) :
    ∀ opts acc, (∀ o ∈ opts, gs (stripNeg o) = Option.none) →
      evalOptionsLoop gs opts acc = acc := by
  intro opts
  induction opts with
  | nil => intro acc _; rfl
  | cons o rest ih =>
    intro acc hall
    have hgs := hall o (List.mem_cons_self o rest)
    have hraw := hgs
    simp only [stripNeg] at hraw
    simp only [evalOptionsLoop, hraw]
    exact ih acc (fun o1 ho1 => hall o1 (List.mem_cons_of_mem o ho1))

/-- Short-circuit: evaluation stops with `No` at the first unsatisfied
conjunct, whatever follows it. -/
theorem evalLoop_shortcircuit (gs : List Nat → Option Bool) :
    ∀ pre acc (u : List Nat) rest, unsatisfied gs u → (∀ o ∈ pre, ¬ unsatisfied gs o) →
      evalOptionsLoop gs (pre ++ u :: rest) acc = OptionEnabled.No := by
  intro pre
  induction pre with
  | nil =>
    intro acc u rest hu _
    unfold unsatisfied at hu
    have hraw := hu
    simp only [stripNeg] at hraw
    simp only [List.nil_append, evalOptionsLoop, hraw, bool_cond_eq]
    have hc : (negFlag u == [33].isPrefixOf u) = true := by
      simp [negFlag]
    rw [hc]
    simp
  | cons o pre ih =>
    intro acc u rest hu hpre
    have hno : ¬ unsatisfied gs o := hpre o (List.mem_cons_self o pre)
    have hpre1 : ∀ o1 ∈ pre, ¬ unsatisfied gs o1 :=
      fun o1 ho1 => hpre o1 (List.mem_cons_of_mem o ho1)
    rcases hgs : gs (stripNeg o) with _ | b
    · have hraw := hgs
      simp only [stripNeg] at hraw
      simp only [List.cons_append, evalOptionsLoop, hraw]
      exact ih acc u rest hu hpre1
    · have hraw := hgs
      simp only [stripNeg] at hraw
      have hb : b ≠ negFlag o := by
        intro hbad
        apply hno
        unfold unsatisfied
        rw [hgs, hbad]
      have hc : (b == [33].isPrefixOf o) = false := by
        simp only [negFlag] at hb
        simp [hb]
      simp only [List.cons_append, evalOptionsLoop, hraw, bool_cond_eq, hc]
      simp only [Bool.false_eq_true, if_false]
      exact ih _ u rest hu hpre1

/-!  Claim C2 and C3 theorems. -/

/-- Claim C2: for every option-directive expression, when all conjunct
identifiers have a known status the tri-state is `No` iff at least one
conjunct is unsatisfied and `Yes` iff all are satisfied (with `!x`
unsatisfied exactly when `x` is enabled and `x` unsatisfied exactly when `x`
is disabled); evaluation short-circuits to `No` at the first unsatisfied
conjunct; and when every identifier is unknown the result is `Ignore`. -/
theorem claim2_theorem :
    (∀ (keep : Bool) (enabled disabled : List (List Nat)) (expr : List Nat),
      (∀ o ∈ slice_split expr sepAnd,
          (get_status keep enabled disabled (stripNeg o)).isSome = true) →
        ((evalOptionExpr (get_status keep enabled disabled) expr = OptionEnabled.No ↔
            ∃ o ∈ slice_split expr sepAnd,
              unsatisfied (get_status keep enabled disabled) o) ∧
         (evalOptionExpr (get_status keep enabled disabled) expr = OptionEnabled.Yes ↔
            ∀ o ∈ slice_split expr sepAnd,
              satisfied (get_status keep enabled disabled) o))) ∧
    (∀ (gs : List Nat → Option Bool) (pre : List (List Nat)) (u : List Nat)
        (rest : List (List Nat)) (acc : OptionEnabled),
      unsatisfied gs u → (∀ o ∈ pre, ¬ unsatisfied gs o) →
      evalOptionsLoop gs (pre ++ u :: rest) acc = OptionEnabled.No) ∧
    (∀ (gs : List Nat → Option Bool) (expr : List Nat),
      (∀ o ∈ slice_split expr sepAnd, gs (stripNeg o) = Option.none) →
      evalOptionExpr gs expr = OptionEnabled.Ignore) := by
  refine ⟨?_, ?_, ?_⟩
  · intro keep enabled disabled expr hknown
    constructor
    · exact evalLoop_no_iff (get_status keep enabled disabled)
        (slice_split expr sepAnd) OptionEnabled.Ignore (by simp)
    · exact (evalLoop_yes_iff (get_status keep enabled disabled)
        (slice_split expr sepAnd) hknown).2 (slice_split_ne_nil expr sepAnd)
  · intro gs pre u rest acc hu hpre
    exact evalLoop_shortcircuit gs pre acc u rest hu hpre
  · intro gs expr hall
    exact evalLoop_ignore gs (slice_split expr sepAnd) OptionEnabled.Ignore hall

/-- Claim C2 witness: `"a && !b"` with `keep = false`, `enabled = {"a"}`,
`disabled = {}`: every conjunct is known, and the claimed equivalences hold
at this instance. -/
theorem claim2_witness :
    (evalOptionExpr (get_status false [[97]] []) [97, 32, 38, 38, 32, 33, 98] =
        OptionEnabled.No ↔
      ∃ o ∈ slice_split [97, 32, 38, 38, 32, 33, 98] sepAnd,
        unsatisfied (get_status false [[97]] []) o) ∧
    (evalOptionExpr (get_status false [[97]] []) [97, 32, 38, 38, 32, 33, 98] =
        OptionEnabled.Yes ↔
      ∀ o ∈ slice_split [97, 32, 38, 38, 32, 33, 98] sepAnd,
        satisfied (get_status false [[97]] []) o) :=
  claim2_theorem.1 false [[97]] [] [97, 32, 38, 38, 32, 33, 98] (by decide)

/-- Claim C3 counterexample: splitting `"a,"` (bytes `[97, 44]`) on the
length-1 separator `","` yields the single slice `"a,"`: the occurrence of
the separator at the final index is never matched (the predicate is not
consulted at index `len - 1`), contradicting "slices at every
non-overlapping left-to-right occurrence". -/
theorem claim3_counterexample :
    slice_split [97, 44] [44] = [[97, 44]] ∧
    splitSpec [44] [97, 44] = [[97], []] ∧
    slice_split [97, 44] [44] ≠ splitSpec [44] [97, 44] := by decide

/-- Claim C3 (amended): for every input slice and every fixed separator of
length at least 2, the iterator yields exactly the slices between the
non-overlapping left-to-right occurrences of the separator (resuming after
each consumed match, always yielding the final slice), and interleaving the
separator between the yielded slices reconstructs the input; in particular
splitting `"a && b && !c"` on `" && "` yields `"a"`, `"b"`, `"!c"`. -/
theorem claim3_theorem :
    (∀ slice sep : List Nat, 2 ≤ sep.length →
      slice_split slice sep = splitSpec sep slice ∧
      joinSep sep (slice_split slice sep) = slice) ∧
    slice_split exprABC sepAnd = [[97], [98], [33, 99]] := by
  constructor
  · intro slice sep hsep
    have h1 := slice_split_eq_splitSpec slice sep hsep
    refine ⟨h1, ?_⟩
    rw [h1]
    exact joinSep_splitSpec sep (by omega) slice.length slice le_rfl
  · decide

/-- Claim C3 witness: the amended statement applied to the concrete slice
`[1, 2, 3, 2, 3, 7]` and separator `[2, 3]`. -/
theorem claim3_witness :
    slice_split [1, 2, 3, 2, 3, 7] [2, 3] = splitSpec [2, 3] [1, 2, 3, 2, 3, 7] ∧
    joinSep [2, 3] (slice_split [1, 2, 3, 2, 3, 7] [2, 3]) = [1, 2, 3, 2, 3, 7] :=
  claim3_theorem.1 [1, 2, 3, 2, 3, 7] [2, 3] (by decide)

/-!  Terminator-freeness: the scanner produces terminator-free lines, and the
rewrite rules preserve terminator-freeness, which is what makes the output's
line structure well defined. -/

/-- Terminator-freeness of every segment payload. -/
def segTermFree : Segment → Prop
  | Segment.sect seg => termFree seg = true
  | _ => True

theorem termFree_append {a b : List Nat} :
    termFree (a ++ b) = (termFree a && termFree b) := List.all_append

theorem termFree_sub {l m : List Nat} (hl : termFree l = true)
    (hsub : ∀ x, x ∈ m → x ∈ l) : termFree m = true := by
  rw [termFree, List.all_eq_true]
  intro x hx
  exact (List.all_eq_true.mp hl) x (hsub x hx)

theorem termFree_take {l : List Nat} (n : Nat) (hl : termFree l = true) :
    termFree (l.take n) = true :=
  termFree_sub hl (fun x hx => List.mem_of_mem_take hx)

theorem termFree_drop {l : List Nat} (n : Nat) (hl : termFree l = true) :
    termFree (l.drop n) = true :=
  termFree_sub hl (fun x hx => List.mem_of_mem_drop hx)

theorem termFree_takeWhile {l : List Nat} (p : Nat → Bool) (hl : termFree l = true) :
    termFree (l.takeWhile p) = true :=
  termFree_sub hl (fun x hx => (List.takeWhile_prefix p).subset hx)

theorem termFree_trim {l : List Nat} (hl : termFree l = true) :
    termFree (trim l) = true :=
  termFree_take _ (termFree_drop _ hl)

/-- The prefix of a list up to the first terminator is terminator-free. -/
theorem termFree_take_findIdx (s : List Nat) :
    termFree (s.take (s.findIdx termByte)) = true := by
  induction s with
  | nil => rfl
  | cons a rest ih =>
    rw [List.findIdx_cons]
    rcases ha : termByte a with _ | _
    · have h1 : (!termByte a) = true := by rw [ha]; rfl
      simp only [ha, cond_false, List.take_succ_cons, termFree, List.all_cons, h1,
        Bool.true_and]
      exact ih
    · simp only [ha, cond_true, List.take_zero]
      rfl

theorem get_last_aux_termFree {bytes pat r : List Nat} (hb : termFree bytes = true) :
    ∀ k, get_last_aux bytes pat k = some r → termFree r = true := by
  intro k
  induction k with
  | zero =>
    intro h
    unfold get_last_aux at h
    split at h
    · cases h
      exact termFree_drop _ hb
    · cases h
  | succ k ih =>
    intro h
    unfold get_last_aux at h
    split at h
    · cases h
      exact termFree_drop _ hb
    · exact ih h

/-- `get_last` returns a suffix of its input. -/
theorem get_last_termFree {bytes to_match r : List Nat}
    (h : get_last bytes to_match = some r) (hb : termFree bytes = true) :
    termFree r = true := by
  unfold get_last at h
  split at h
  · exact get_last_aux_termFree hb _ h
  · cases h

theorem get_lines_fuel_fuel :
    ∀ f₁ f₂ s, s.length < f₁ → s.length < f₂ →
      get_lines_fuel f₁ s = get_lines_fuel f₂ s := by
  intro f₁
  induction f₁ with
  | zero => intro f₂ s h1 _; omega
  | succ f ih =>
    intro f₂ s h1 h2
    match f₂, h2 with
    | g + 1, h2 =>
      simp only [get_lines_fuel]
      split
      · rfl
      next hne =>
        split
        next hidx =>
          have hpos : 1 ≤ s.length := by
            cases s with
            | nil => exact absurd rfl hne
            | cons a t => simp
          split
          · split
            · rw [ih g (s.drop (s.findIdx termByte + 2))
                (by rw [List.length_drop]; omega) (by rw [List.length_drop]; omega)]
            · rfl
          · rw [ih g (s.drop (s.findIdx termByte + 1))
              (by rw [List.length_drop]; omega) (by rw [List.length_drop]; omega)]
        · rfl

/-- Every line produced by the scanner is terminator-free. -/
theorem get_lines_termFree :
    ∀ fuel s ls, get_lines_fuel fuel s = some ls → ∀ l ∈ ls, termFree l = true := by
  intro fuel
  induction fuel with
  | zero => intro s ls h; cases h
  | succ fuel ih =>
    intro s ls h
    simp only [get_lines_fuel] at h
    split at h
    · cases h
      intro l hl
      cases hl
    · split at h
      · split at h
        · split at h
          · rcases Option.map_eq_some'.mp h with ⟨r, hr, hls⟩
            subst hls
            intro l hl
            rcases List.mem_cons.mp hl with rfl | hl
            · exact termFree_take_findIdx s
            · exact ih _ r hr l hl
          · cases h
        · rcases Option.map_eq_some'.mp h with ⟨r, hr, hls⟩
          subst hls
          intro l hl
          rcases List.mem_cons.mp hl with rfl | hl
          · exact termFree_take_findIdx s
          · exact ih _ r hr l hl
      · cases h

/-- `findIdx` on a terminator-free prefix followed by a terminator. -/
theorem findIdx_termFree_append {m : List Nat} (hm : termFree m = true)
    {x : Nat} (hx : termByte x = true) (t : List Nat) :
    (m ++ x :: t).findIdx termByte = m.length := by
  induction m with
  | nil => simp [List.findIdx_cons, hx]
  | cons a rest ih =>
    have hall := List.all_eq_true.mp hm
    have ha : termByte a = false := by
      have := hall a (List.mem_cons_self a rest)
      rcases hb : termByte a with _ | _
      · rfl
      · rw [hb] at this; cases this
    have hrest : termFree rest = true := by
      rw [termFree, List.all_eq_true]
      exact fun b hb => hall b (List.mem_cons_of_mem a hb)
    simp only [List.cons_append, List.findIdx_cons, ha, cond_false, ih hrest,
      List.length_cons]

/-- One scanner step over a terminator-free content followed by the line
ending: the content is yielded and scanning resumes after the ending. -/
theorem get_lines_fuel_step (fuel : Nat) {m : List Nat} (hm : termFree m = true)
    {e : List Nat} (he : e = [10] ∨ e = [13, 10]) (rest : List Nat) :
    get_lines_fuel (fuel + 1) (m ++ (e ++ rest)) =
      (get_lines_fuel fuel rest).map (fun r => m :: r) := by
  rcases he with he | he <;> subst he <;>
    simp only [List.cons_append, List.singleton_append, List.nil_append]
  · have hidx : (m ++ (10 :: rest)).findIdx termByte = m.length :=
      findIdx_termFree_append hm (by rfl) rest
    have hlen : (m ++ (10 :: rest)).length = m.length + (rest.length + 1) := by simp
    have hne : (m ++ (10 :: rest)) ≠ [] := by simp
    have hlt : (m ++ (10 :: rest)).findIdx termByte < (m ++ (10 :: rest)).length := by
      rw [hidx, hlen]
      omega
    simp only [get_lines_fuel]
    rw [if_neg hne, dif_pos hlt]
    have hget : (m ++ (10 :: rest)).get ⟨(m ++ (10 :: rest)).findIdx termByte, hlt⟩ = 10 := by
      rw [List.get_eq_getElem]
      simp only [hidx]
      rw [List.getElem_append_right (le_refl m.length)]
      simp
    rw [hget]
    have h1013 : ((10 : Nat) == 13) = false := rfl
    rw [h1013, if_neg (by simp)]
    rw [hidx]
    have hdrop : (m ++ (10 :: rest)).drop (m.length + 1) = rest := by
      rw [List.drop_append]
      rfl
    have htake : (m ++ (10 :: rest)).take m.length = m := List.take_left m (10 :: rest)
    rw [hdrop, htake]
  · have hidx : (m ++ (13 :: 10 :: rest)).findIdx termByte = m.length :=
      findIdx_termFree_append hm (by rfl) (10 :: rest)
    have hlen : (m ++ (13 :: 10 :: rest)).length = m.length + (rest.length + 2) := by simp
    have hne : (m ++ (13 :: 10 :: rest)) ≠ [] := by simp
    have hlt : (m ++ (13 :: 10 :: rest)).findIdx termByte <
        (m ++ (13 :: 10 :: rest)).length := by
      rw [hidx, hlen]
      omega
    simp only [get_lines_fuel]
    rw [if_neg hne, dif_pos hlt]
    have hget : (m ++ (13 :: 10 :: rest)).get
        ⟨(m ++ (13 :: 10 :: rest)).findIdx termByte, hlt⟩ = 13 := by
      rw [List.get_eq_getElem]
      simp only [hidx]
      rw [List.getElem_append_right (le_refl m.length)]
      simp
    rw [hget]
    have h1313 : ((13 : Nat) == 13) = true := rfl
    rw [h1313, if_pos rfl]
    rw [hidx]
    rw [if_pos (by rw [hlen]; omega)]
    have hdrop : (m ++ (13 :: 10 :: rest)).drop (m.length + 2) = rest := by
      rw [List.drop_append]
      rfl
    have htake : (m ++ (13 :: 10 :: rest)).take m.length = m :=
      List.take_left m (13 :: 10 :: rest)
    rw [hdrop, htake]

/-- Re-splitting: scanning the concatenation of terminator-free contents each
followed by the same line ending recovers exactly those contents. -/
theorem get_lines_flatten {e : List Nat} (he : e = [10] ∨ e = [13, 10]) :
    ∀ ms : List (List Nat), (∀ m ∈ ms, termFree m = true) →
      get_lines ((ms.map (fun m => m ++ e)).flatten) = some ms := by
  intro ms
  induction ms with
  | nil => intro _; rfl
  | cons m rest ih =>
    intro hall
    have hm : termFree m = true := hall m (List.mem_cons_self m rest)
    have hrest : ∀ m1 ∈ rest, termFree m1 = true :=
      fun m1 h1 => hall m1 (List.mem_cons_of_mem m h1)
    have he1 : 1 ≤ e.length := by rcases he with he | he <;> subst he <;> simp
    have hassoc : ((m :: rest).map (fun m => m ++ e)).flatten =
        m ++ (e ++ (rest.map (fun m => m ++ e)).flatten) := by
      simp [List.append_assoc]
    unfold get_lines
    rw [hassoc]
    have hslen : (m ++ (e ++ (rest.map (fun m => m ++ e)).flatten)).length =
        m.length + e.length + (rest.map (fun m => m ++ e)).flatten.length := by
      simp
      omega
    rw [show (m ++ (e ++ (rest.map (fun m => m ++ e)).flatten)).length + 1 =
      ((m ++ (e ++ (rest.map (fun m => m ++ e)).flatten)).length) + 1 from rfl]
    rw [get_lines_fuel_step _ hm he]
    rw [get_lines_fuel_fuel _ ((rest.map (fun m => m ++ e)).flatten.length + 1) _
      (by rw [hslen]; omega) (by omega)]
    rw [show get_lines_fuel ((rest.map (fun m => m ++ e)).flatten.length + 1)
      ((rest.map (fun m => m ++ e)).flatten) =
      get_lines ((rest.map (fun m => m ++ e)).flatten) from rfl]
    rw [ih hrest]
    rfl

/-- The detected line ending is always `"\n"` or `"\r\n"`. -/
theorem get_line_ending_cases (bytes : List Nat) :
    get_line_ending bytes = [10] ∨ get_line_ending bytes = [13, 10] := by
  unfold get_line_ending
  split
  · right
    rfl
  · left
    rfl
  · left
    rfl

/-- On a buffer made of terminator-free contents each followed by the ending
`e`, the detected line ending is `e` itself (the first terminator byte is the
first byte of the first copy of `e`). -/
theorem get_line_ending_flatten {e : List Nat} (he : e = [10] ∨ e = [13, 10])
    (m0 : List Nat) (ms : List (List Nat)) (hm0 : termFree m0 = true) :
    get_line_ending (((m0 :: ms).map (fun m => m ++ e)).flatten) = e := by
  have hassoc : ((m0 :: ms).map (fun m => m ++ e)).flatten =
      m0 ++ (e ++ (ms.map (fun m => m ++ e)).flatten) := by
    simp [List.append_assoc]
  rw [hassoc]
  unfold get_line_ending
  rw [List.find?_append]
  have hnone : m0.find? termByte = none := by
    rw [List.find?_eq_none]
    intro x hx
    have hbx := (List.all_eq_true.mp hm0) x hx
    simp only [Bool.not_eq_true'] at hbx
    simp [hbx]
  rw [hnone]
  rcases he with he | he <;> subst he <;> rfl

/-- A `processLine` step sends terminator-free data to terminator-free data:
the emitted content and any segment payload stored in the new state are
built only from fragments of the line, the markers, and spaces. -/
theorem processLine_termFree {c : List Nat} {ec : Option (List Nat)}
    {gs : List Nat → Option Bool} {s : Segment} {line m : List Nat} {t : Segment}
    (h : processLine c ec gs s line = some (m, t))
    (hline : termFree line = true) (hc : termFree c = true)
    (hec : ∀ e, ec = some e → termFree e = true)
    (hs : segTermFree s) : termFree m = true ∧ segTermFree t := by
  have h32 : termFree [32] = true := rfl
  simp only [processLine] at h
  split at h
  · -- directive-shaped line
    split at h
    · exact absurd h (by simp)
    · split at h
      · injection h with h1
        injection h1 with hm ht
        subst hm
        subst ht
        exact ⟨hline, trivial⟩
      · split at h
        · injection h with h1
          injection h1 with hm ht
          subst hm
          subst ht
          refine ⟨hline, ?_⟩
          split
          · trivial
          · exact termFree_drop _ hline
        · split at h
          · split at h
            · injection h with h1
              injection h1 with hm ht
              subst hm
              subst ht
              exact ⟨hline, trivial⟩
            · split at h
              · split at h
                · injection h with h1
                  injection h1 with hm ht
                  subst hm
                  subst ht
                  exact ⟨hline, trivial⟩
                · exact absurd h (by simp)
              · exact absurd h (by simp)
          · injection h with h1
            injection h1 with hm ht
            subst hm
            subst ht
            exact ⟨hline, hs⟩
  · -- data line
    split at h
    next segStr =>
      -- Segment.sect
      split at h
      · injection h with h1
        injection h1 with hm ht
        subst hm
        subst ht
        exact ⟨hline, hs⟩
      · split at h
        · injection h with h1
          injection h1 with hm ht
          subst hm
          subst ht
          exact ⟨hline, hs⟩
        · split at h
          · injection h with h1
            injection h1 with hm ht
            subst hm
            subst ht
            exact ⟨hline, hs⟩
          · split at h
            · injection h with h1
              injection h1 with hm ht
              subst hm
              subst ht
              exact ⟨hline, hs⟩
            · split at h
              · split at h
                · injection h with h1
                  injection h1 with hm ht
                  subst hm
                  subst ht
                  refine ⟨?_, hs⟩
                  simp only [termFree_append, Bool.and_eq_true]
                  exact ⟨⟨⟨termFree_take _ hline, hc⟩, h32⟩, termFree_drop _ hline⟩
                · injection h with h1
                  injection h1 with hm ht
                  subst hm
                  subst ht
                  exact ⟨hline, hs⟩
              · injection h with h1
                injection h1 with hm ht
                subst hm
                subst ht
                refine ⟨?_, hs⟩
                simp only [termFree_append, Bool.and_eq_true]
                have hseg : termFree segStr = true := hs
                exact ⟨⟨termFree_take _ hline, hseg⟩, termFree_drop _ hline⟩
    · -- Segment.opt
      split at h
      · injection h with h1
        injection h1 with hm ht
        subst hm
        subst ht
        exact ⟨hline, hs⟩
      · split at h
        · exact absurd h (by simp)
        · split at h
          · injection h with h1
            injection h1 with hm ht
            subst hm
            subst ht
            exact ⟨hline, hs⟩
          · injection h with h1
            injection h1 with hm ht
            subst hm
            subst ht
            exact ⟨hline, hs⟩
          · injection h with h1
            injection h1 with hm ht
            subst hm
            subst ht
            exact ⟨hline, hs⟩
          · injection h with h1
            injection h1 with hm ht
            subst hm
            subst ht
            refine ⟨?_, hs⟩
            simp only [termFree_append, Bool.and_eq_true]
            refine ⟨⟨⟨⟨termFree_take _ hline, hc⟩, h32⟩, termFree_drop _ hline⟩, ?_⟩
            split
            · rfl
            next e =>
              show termFree (32 :: e) = true
              have he : termFree e = true := hec e rfl
              rw [show (32 :: e) = [32] ++ e from rfl, termFree_append, he, h32]
              rfl
          · split at h
            · injection h with h1
              injection h1 with hm ht
              subst hm
              subst ht
              refine ⟨?_, hs⟩
              simp only [termFree_append, Bool.and_eq_true]
              exact ⟨termFree_take _ hline, termFree_drop _ hline⟩
            · split at h
              · split at h
                · injection h with h1
                  injection h1 with hm ht
                  subst hm
                  subst ht
                  refine ⟨?_, hs⟩
                  simp only [termFree_append, Bool.and_eq_true]
                  exact ⟨⟨termFree_take _ hline, termFree_take _ (termFree_drop _ hline)⟩,
                    termFree_drop _ hline⟩
                · exact absurd h (by simp)
              · exact absurd h (by simp)
    · -- Segment.none
      injection h with h1
      injection h1 with hm ht
      subst hm
      subst ht
      exact ⟨hline, hs⟩

/-- The whole loop sends terminator-free lines to terminator-free emitted
contents. -/
theorem processLoop_termFree {c : List Nat} {ec : Option (List Nat)}
    {gs : List Nat → Option Bool} :
    ∀ {ls : List (List Nat)} {s : Segment} {ms : List (List Nat)},
      processLoop c ec gs s ls = some ms →
      (∀ l ∈ ls, termFree l = true) → termFree c = true →
      (∀ e, ec = some e → termFree e = true) → segTermFree s →
      ∀ m ∈ ms, termFree m = true := by
  intro ls
  induction ls with
  | nil =>
    intro s ms h _ _ _ _
    cases h
    intro m hm
    cases hm
  | cons l ls ih =>
    intro s ms h hls hc hec hs
    simp only [processLoop] at h
    rcases hline : processLine c ec gs s l with _ | ⟨m1, t⟩
    · simp only [hline] at h
      exact Option.noConfusion h
    · simp only [hline] at h
      rcases hrest : processLoop c ec gs t ls with _ | ms1
      · simp only [hrest] at h
        exact Option.noConfusion h
      · simp only [hrest] at h
        injection h with h1
        subst h1
        have hl : termFree l = true := hls l (List.mem_cons_self l ls)
        have h1 := processLine_termFree hline hl hc hec hs
        intro m hm
        rcases List.mem_cons.mp hm with rfl | hm
        · exact h1.1
        · exact ih hrest (fun l1 hl1 => hls l1 (List.mem_cons_of_mem l hl1)) hc hec h1.2 m hm

theorem get_common_comments_termFree {bytes c0 : List Nat}
    (h : get_common_comments bytes = some c0) : termFree c0 = true := by
  unfold get_common_comments at h
  split at h
  · injection h with h1
    subst h1
    rfl
  · split at h
    · injection h with h1
      subst h1
      rfl
    · split at h
      · injection h with h1
        subst h1
        rfl
      · cases h

theorem firstLine_termFree {config fl : List Nat}
    (h : firstLine config = some (some fl)) : termFree fl = true := by
  unfold firstLine at h
  split at h
  · exact absurd h (by simp)
  · split at h
    · injection h with h1
      injection h1 with h2
      subst h2
      exact termFree_take_findIdx config
    · cases h

/-- Every successfully resolved comment marker is terminator-free, provided
the caller-supplied one is: the common markers are literals and the
first-line fallback tokens are fragments of a scanned line. -/
theorem resolveComment_termFree {config : List Nat} {co : Option (List Nat)}
    {ml : Option Nat} {c : List Nat}
    (hco : ∀ x, co = some x → termFree x = true) :
    resolveComment config co ml = ResolveResult.ok c → termFree c = true := by
  unfold resolveComment
  rcases hcc : get_common_comments config with _ | c0
  · rcases co with _ | x
    · rcases hfl : firstLine config with _ | ofl
      · intro h
        cases h
      · rcases ofl with _ | fl
        · intro h
          cases h
        · rcases ml with _ | mlv
          · intro h
            injection h with h1
            subst h1
            exact termFree_takeWhile _ (firstLine_termFree hfl)
          · intro h
            have h2 : (if (wsToken fl).length ≤ mlv then ResolveResult.ok (spaceToken fl)
                else ResolveResult.errTooLong) = ResolveResult.ok c := h
            by_cases hb : (wsToken fl).length ≤ mlv
            · rw [if_pos hb] at h2
              injection h2 with h1
              subst h1
              exact termFree_takeWhile _ (firstLine_termFree hfl)
            · rw [if_neg hb] at h2
              cases h2
    · intro h
      injection h with h1
      subst h1
      exact hco x rfl
  · intro h
    injection h with h1
    subst h1
    exact get_common_comments_termFree hcc

/-- Claim C8: for every input file (with terminator-free markers), the output
buffer is exactly the emitted per-line contents — each terminator-free — each
followed by the single line ending detected from the first terminator byte of
the original file; the ending is uniformly `"\n"` or `"\r\n"`, `"\r\n"` when
the first terminator byte is CR and `"\n"` otherwise (so files with uniform
line endings keep their style). -/
theorem claim8_theorem (config : List Nat) (caller : Option (List Nat × Option (List Nat)))
    (enabled disabled : List (List Nat)) (keep : Bool) (maxCommentLen : Option Nat)
    (out : List Nat)
    (hcaller : ∀ p, caller = some p → termFree p.1 = true ∧
      ∀ e, p.2 = some e → termFree e = true)
    (hrun : process_file config caller enabled disabled keep maxCommentLen = some out) :
    (get_line_ending config = [10] ∨ get_line_ending config = [13, 10]) ∧
    (get_line_ending config =
      match config.find? termByte with
      | some 13 => [13, 10]
      | some _ => [10]
      | none => [10]) ∧
    ∃ ms : List (List Nat), (∀ m ∈ ms, termFree m = true) ∧
      out = (ms.map (fun m => m ++ get_line_ending config)).flatten := by
  refine ⟨get_line_ending_cases config, rfl, ?_⟩
  simp only [process_file] at hrun
  rcases hres : resolveComment config (caller.map (fun p => p.1)) maxCommentLen with
    c | _ | _ | _ <;> simp only [hres] at hrun <;>
    try exact Option.noConfusion hrun
  have hc : termFree c = true := by
    refine resolveComment_termFree ?_ hres
    intro x hx
    rcases caller with _ | p
    · cases hx
    · simp only [Option.map_some'] at hx
      injection hx with hx1
      subst hx1
      exact (hcaller p rfl).1
  have hec : ∀ e, (caller.bind (fun p => p.2)) = some e → termFree e = true := by
    intro e he
    rcases caller with _ | p
    · cases he
    · simp only [Option.bind_some] at he
      exact (hcaller p rfl).2 e he
  simp only [processWithComment] at hrun
  rcases hls : get_lines config with _ | ls
  · simp only [hls] at hrun
    exact Option.noConfusion hrun
  · simp only [hls] at hrun
    rcases hloop : processLoop c (caller.bind (fun p => p.2))
        (get_status keep enabled disabled) Segment.none ls with _ | ms
    · simp only [hloop] at hrun
      exact Option.noConfusion hrun
    · simp only [hloop] at hrun
      injection hrun with h1
      subst h1
      refine ⟨ms, ?_, rfl⟩
      have hlines : ∀ l ∈ ls, termFree l = true := by
        intro l hl
        exact get_lines_termFree _ config ls hls l hl
      exact processLoop_termFree hloop hlines hc hec trivial

theorem processLoop_nil_inv {c : List Nat} {ec : Option (List Nat)}
    {gs : List Nat → Option Bool} {s : Segment} {ls : List (List Nat)}
    (h : processLoop c ec gs s ls = some []) : ls = [] := by
  cases ls with
  | nil => rfl
  | cons l ls =>
    exfalso
    simp only [processLoop] at h
    rcases hline : processLine c ec gs s l with _ | ⟨m1, t⟩ <;> simp only [hline] at h
    · exact Option.noConfusion h
    · rcases hrest : processLoop c ec gs t ls with _ | ms1 <;> simp only [hrest] at h
      · exact Option.noConfusion h
      · injection h with h1
        exact List.noConfusion h1

theorem get_lines_nil_inv {config : List Nat} (h : get_lines config = some []) :
    config = [] := by
  by_cases hc : config = []
  · exact hc
  · exfalso
    unfold get_lines at h
    simp only [get_lines_fuel] at h
    rw [if_neg hc] at h
    split at h
    · split at h
      · split at h
        · rcases Option.map_eq_some'.mp h with ⟨r, _, hcontr⟩
          exact List.noConfusion hcontr
        · exact Option.noConfusion h
      · rcases Option.map_eq_some'.mp h with ⟨r, _, hcontr⟩
        exact List.noConfusion hcontr
    · exact Option.noConfusion h

/-- Claim C1 (amended): processing is NOT idempotent in general (see the
counterexample: a line uncommented by an enabled option can again begin with
the comment marker plus space and is uncommented once more on the second
run).  What holds: whenever the per-line loop maps the first run's emitted
contents to themselves, a full second run — which re-splits the output into
exactly those contents and re-detects the same line ending — returns the
first run's output byte-identically. -/
theorem claim1_amended (c : List Nat) (ec : Option (List Nat))
    (gs : List Nat → Option Bool) (config : List Nat) (ls ms : List (List Nat))
    (hc : termFree c = true)
    (hec : ∀ e, ec = some e → termFree e = true)
    (hls : get_lines config = some ls)
    (hrun : processLoop c ec gs Segment.none ls = some ms)
    (hstable : processLoop c ec gs Segment.none ms = some ms) :
    processWithComment c ec gs config =
      some ((ms.map (fun m => m ++ get_line_ending config)).flatten) ∧
    processWithComment c ec gs
        ((ms.map (fun m => m ++ get_line_ending config)).flatten) =
      some ((ms.map (fun m => m ++ get_line_ending config)).flatten) := by
  have hmsfree : ∀ m ∈ ms, termFree m = true :=
    processLoop_termFree hrun (fun l hl => get_lines_termFree _ config ls hls l hl)
      hc hec trivial
  have he := get_line_ending_cases config
  constructor
  · simp only [processWithComment, hls, hrun]
  · have hresplit : get_lines ((ms.map (fun m => m ++ get_line_ending config)).flatten)
        = some ms := get_lines_flatten he ms hmsfree
    have hend : get_line_ending ((ms.map (fun m => m ++ get_line_ending config)).flatten)
        = get_line_ending config := by
      cases ms with
      | nil =>
        have hls0 : ls = [] := processLoop_nil_inv hrun
        subst hls0
        have hcfg : config = [] := get_lines_nil_inv hls
        subst hcfg
        rfl
      | cons m0 ms1 =>
        exact get_line_ending_flatten he m0 ms1 (hmsfree m0 (List.mem_cons_self m0 ms1))
    simp only [processWithComment, hresplit, hstable, hend]

/-- Claim C1 counterexample: on
`"# CORPL option foo\n# # x\n# CORPL end\n"` with `enabled = {foo}`,
`keep = false`, the first run uncomments the middle line to `"# x"` and the
second run uncomments it again to `"x"`: the second run's output is not
byte-identical to the first run's. -/
theorem claim1_counterexample :
    process_file configX none [fooBytes] [] false none = some outX1 ∧
    process_file outX1 none [fooBytes] [] false none = some outX2 ∧
    outX2 ≠ outX1 := by decide

/-- The lines of `outD` (scenario A input). -/
def linesA : List (List Nat) :=
  [[35, 32, 67, 79, 82, 80, 76, 32, 111, 112, 116, 105, 111, 110, 32, 102, 111, 111],
   [35, 32, 115, 101, 99, 114, 101, 116, 61, 49],
   [35, 32, 67, 79, 82, 80, 76, 32, 101, 110, 100]]

/-- The contents emitted for `outD` with `enabled = {foo}`, `keep = false`:
the middle line is uncommented, and is then a fixed point of the loop. -/
def contentsA : List (List Nat) :=
  [[35, 32, 67, 79, 82, 80, 76, 32, 111, 112, 116, 105, 111, 110, 32, 102, 111, 111],
   [115, 101, 99, 114, 101, 116, 61, 49],
   [35, 32, 67, 79, 82, 80, 76, 32, 101, 110, 100]]

/-- Claim C1 witness: scenario A (uncommenting `secret=1` under an enabled
option) is a loop fixed point, so the conditional idempotence theorem applies
and both runs agree. -/
theorem claim1_witness :
    processWithComment [35] Option.none (get_status false [fooBytes] []) outD =
      some ((contentsA.map (fun m => m ++ get_line_ending outD)).flatten) ∧
    processWithComment [35] Option.none (get_status false [fooBytes] [])
        ((contentsA.map (fun m => m ++ get_line_ending outD)).flatten) =
      some ((contentsA.map (fun m => m ++ get_line_ending outD)).flatten) :=
  claim1_amended [35] Option.none (get_status false [fooBytes] []) outD linesA contentsA
    (by decide) (fun e he => Option.noConfusion he) (by decide) (by decide) (by decide)

/-- Claim C8 witness: the scenario D file with no caller marker. -/
theorem claim8_witness :
    (get_line_ending configD = [10] ∨ get_line_ending configD = [13, 10]) ∧
    (get_line_ending configD =
      match configD.find? termByte with
      | some 13 => [13, 10]
      | some _ => [10]
      | none => [10]) ∧
    ∃ ms : List (List Nat), (∀ m ∈ ms, termFree m = true) ∧
      outD = (ms.map (fun m => m ++ get_line_ending configD)).flatten :=
  claim8_theorem configD none [] [fooBytes] true none outD
    (fun p hp => Option.noConfusion hp) (by decide)

/-- Claim C4 counterexample: scenario B does not rewrite the middle line to
`"// port=80"` as the claim asserts. -/
theorem claim4_counterexample :
    process_file configB none [] [] false none ≠ some claimedB := by decide

/-- Claim C4 (amended): on scenario B the middle line becomes `"// "` — the
section's literal text `"port=80"` is replaced by the comment marker and a
space (the §4.5 replace rule), not prefixed by it; the rest of the line
after the literal (here empty) is preserved, and both directive lines are
emitted unchanged. -/
theorem claim4_theorem :
    process_file configB none [] [] false none = some outB := by decide

/-- Claim C5 counterexample: a file starting with `";;config;;"` starts with
the common marker `";"`, so comment resolution succeeds with marker `";"`
(and processing completes, leaving the directive-free file unchanged) —
it does not fail as the claim asserts. -/
theorem claim5_counterexample :
    resolveComment configC5 none (some 4) = ResolveResult.ok [59] ∧
    process_file configC5 none [] [] false (some 4) = some configC5 := by decide

/-- Claim C5 (amended): `";;config;;"` resolves successfully to the marker
`";"` via the common-marker shortcut; the bounded-length failure arises only
for a first line starting with none of `#`, `//`, `;` — e.g. `"**config**"`
with bound 4 fails with the "Failed to get comment string" diagnostic — while
the "could not determine comment character" diagnostic is the empty-file
failure. -/
theorem claim5_theorem :
    resolveComment configC5 none (some 4) = ResolveResult.ok [59] ∧
    resolveComment configStars none (some 4) = ResolveResult.errTooLong ∧
    resolveComment ([] : List Nat) none (some 4) = ResolveResult.errEmptyFile := by decide

/-- Claim C6: on the first line `"ab\tcd x"` with bound 4, the
whitespace-delimited first token is `"ab"` (length 2, within the bound), yet
the accepted marker is the space-delimited token `"ab\tcd"` of length 5 —
exceeding the bound and differing from the whitespace-delimited token, so the
code contradicts the claimed bound on accepted markers.  The empty-file
failure does hold. -/
theorem claim6_theorem :
    resolveComment configTab none (some 4) = ResolveResult.ok [97, 98, 9, 99, 100] ∧
    wsToken [97, 98, 9, 99, 100, 32, 120] = [97, 98] ∧
    4 < ([97, 98, 9, 99, 100] : List Nat).length ∧
    resolveComment ([] : List Nat) none (some 4) = ResolveResult.errEmptyFile := by decide

/-- Claim C7: the tri-state status: with `keep = true`, disabled wins, then
enabled, else unknown; with `keep = false`, enabled iff in the enabled set
and absent identifiers collapse to disabled (`some false`, never unknown).
Scenario D: `keep = true`, `disabled = {foo}` comments the uncommented line
under `option foo`; and with both sets empty and `keep = true` the file is
left byte-identical (unknown preserves the on-disk state). -/
theorem claim7_theorem :
    (∀ (enabled disabled : List (List Nat)) (id : List Nat),
      (id ∈ disabled → get_status true enabled disabled id = some false) ∧
      (id ∉ disabled → id ∈ enabled → get_status true enabled disabled id = some true) ∧
      (id ∉ disabled → id ∉ enabled → get_status true enabled disabled id = Option.none) ∧
      (id ∉ enabled → get_status false enabled disabled id = some false) ∧
      (get_status false enabled disabled id = some true ↔ id ∈ enabled)) ∧
    process_file configD none [] [fooBytes] true none = some outD ∧
    process_file configD none [] [] true none = some configD := by
  refine ⟨?_, by decide, by decide⟩
  intro enabled disabled id
  refine ⟨?_, ?_, ?_, ?_, ?_⟩
  · intro hd
    unfold get_status
    have h1 : disabled.contains id = true := List.elem_iff.mpr hd
    rw [if_pos rfl, h1]
    rfl
  · intro hd he
    unfold get_status
    have h1 : disabled.contains id = false := by
      rcases hx : disabled.contains id with _ | _
      · rfl
      · exact absurd (List.elem_iff.mp hx) hd
    have h2 : enabled.contains id = true := List.elem_iff.mpr he
    rw [if_pos rfl, h1, h2]
    rfl
  · intro hd he
    unfold get_status
    have h1 : disabled.contains id = false := by
      rcases hx : disabled.contains id with _ | _
      · rfl
      · exact absurd (List.elem_iff.mp hx) hd
    have h2 : enabled.contains id = false := by
      rcases hx : enabled.contains id with _ | _
      · rfl
      · exact absurd (List.elem_iff.mp hx) he
    rw [if_pos rfl, h1, h2]
    rfl
  · intro he
    unfold get_status
    rw [if_neg (by simp)]
    have h1 : enabled.contains id = false := by
      rcases hx : enabled.contains id with _ | _
      · rfl
      · exact absurd (List.elem_iff.mp hx) he
    rw [h1]
  · unfold get_status
    rw [if_neg (by simp)]
    constructor
    · intro h
      injection h with h1
      exact List.elem_iff.mp h1
    · intro h
      have h1 : enabled.contains id = true := List.elem_iff.mpr h
      rw [h1]

/-- Claim C7 witness: the status clauses at `enabled = {"a"}`,
`disabled = {foo}`, `id = foo`: explicitly disabled under `keep = true`, and
collapsing to disabled (`some false`, never unknown) under `keep = false`
because `foo` is absent from the enabled set. -/
theorem claim7_witness :
    get_status true [[97]] [fooBytes] fooBytes = some false ∧
    get_status false [[97]] [fooBytes] fooBytes = some false ∧
    (get_status false [[97]] [fooBytes] fooBytes = some true ↔ fooBytes ∈ [[97]]) :=
  ⟨(claim7_theorem.1 [[97]] [fooBytes] fooBytes).1 (by decide),
   (claim7_theorem.1 [[97]] [fooBytes] fooBytes).2.2.2.1 (by decide),
   (claim7_theorem.1 [[97]] [fooBytes] fooBytes).2.2.2.2⟩

/-- Claim C9: the line scanner is not total: on the one-byte input `"a"`
(no trailing newline) `Lines::next` indexes one past the end of the buffer
and panics, while the same content with a trailing newline scans fine. -/
theorem claim9_theorem :
    get_lines [97] = none ∧ get_lines [97, 10] = some [[97]] := by decide

/-- Claim C10: the three indexing sites are not in bounds for every
directive-shaped or option-mode line: a data line that is exactly the
comment marker panics in the `currently_active` index, a directive line
shorter than `start + 4` panics in the `end` check when a closing marker is
configured, and an option directive whose closing-marker end offset falls
before the expression start panics in the expression slice; a one-byte-longer
data line processes fine. -/
theorem claim10_theorem :
    process_file configMarkerLine none [fooBytes] [] false none = none ∧
    process_file configEndPanic (some ([35], some [59])) [] [] false none = none ∧
    process_file configOptPanic (some ([35], some [59, 59])) [] [] false none = none ∧
    process_file outX1 none [fooBytes] [] false none = some outX2 := by decide

end Corpl
